import Mathlib

/-!
Verification of the single-document cleaning pipeline of
`.tools/update-mod.py` (function `clean_xml` and its inner helper
`remove_empty_elements`).

The script parses an XML document with `xml.etree.ElementTree`, decides
whether the tree contains a disallowed prop (an element whose `actor`
attribute contains the substring "blood", case-insensitively), strips such
props from every `props` container, defaults missing `frequency`
attributes on `variant` elements to "0", recursively prunes empty
structural elements, and returns the serialized tree, or `None` when
nothing is (recorded as) modified.

We embed the document tree as a rose tree (`Node` with a `NodeList` of
children, a mutual inductive so that all functions are structurally
recursive and kernel-reducible).  Attributes are an association list with
first-match lookup, matching the observable behaviour of the ElementTree
attribute dictionary (`get` / `set`).  Serialization and file I/O are
external collaborators; `clean_xml` here returns the tree that would be
serialized (`some tree`) or `none` when the script returns `None`.
-/

mutual

/-- An XML element: tag, attributes (association list, first match wins,
mirroring the ElementTree attribute dictionary) and ordered children. -/
inductive Node where
  | mk (tag : String) (attrs : List (String × String)) (children : NodeList)

/-- The ordered children of an element.  A separate inductive (rather than
`List Node`) so that the mutual recursions below are structural. -/
inductive NodeList where
  | nil
  | cons (hd : Node) (tl : NodeList)

end

def Node.tag : Node → String
  | .mk t _ _ => t

def Node.attrs : Node → List (String × String)
  | .mk _ a _ => a

def Node.children : Node → NodeList
  | .mk _ _ cs => cs

/-- Model of `ElementTree.Element.get(key)`: the attribute value, or `None` when the
attribute is absent.  First match wins, as in a dictionary with unique keys. -/
def getA : List (String × String) → String → Option String
  | [], _ => none
  | (k', v') :: rest, k => if k' = k then some v' else getA rest k

/-- Model of `ElementTree.Element.set(key, value)`: replace the value of an existing
attribute, or append the attribute when absent (dictionary update). -/
def setA : List (String × String) → String → String → List (String × String)
  | [], k, v => [(k, v)]
  | (k', v') :: rest, k, v => if k' = k then (k, v) :: rest else (k', v') :: setA rest k v

/-- Python truthiness of `element.get(key)`: `None` and the empty string are
falsy, every other string is truthy (used by `not child.get("file")`). -/
def truthy : Option String → Bool
  | none => false
  | some s => decide (s ≠ "")

def isNilL : NodeList → Bool
  | .nil => true
  | .cons _ _ => false

def lenL : NodeList → Nat
  | .nil => 0
  | .cons _ l => lenL l + 1

/-- Python `any(p(c) for c in l)` over a child list. -/
def anyL (p : Node → Bool) : NodeList → Bool
  | .nil => false
  | .cons c l => p c || anyL p l

/-- Python `all(p(c) for c in l)` over a child list. -/
def allL (p : Node → Bool) : NodeList → Bool
  | .nil => true
  | .cons c l => p c && allL p l

/-- The list comprehension `[c for c in l if p(c)]`. -/
def filterL (p : Node → Bool) : NodeList → NodeList
  | .nil => .nil
  | .cons c l => if p c then .cons c (filterL p l) else filterL p l

/-- Does `pat` occur at the head of `s`? (building block for substring search) -/
def matchesAt : List Char → List Char → Bool
  | [], _ => true
  | _ :: _, [] => false
  | p :: ps, c :: cs => p == c && matchesAt ps cs

/-- Python `pat in s` for strings as character lists: does `pat` occur as a
contiguous subsequence of `s`? -/
def containsSeq (pat : List Char) : List Char → Bool
  | [] => matchesAt pat []
  | c :: cs => matchesAt pat (c :: cs) || containsSeq pat cs

/-- Model of `"blood" in s.lower()` — the disallowed-content marker test of
update-mod.py (lines 31 and 38).  Lowercasing is done character-wise; for
the ASCII marker "blood" this agrees with Python's `str.lower`, since the
characters of the marker arise only as lowerings of their ASCII uppercase
forms. -/
def lowerHasBlood (s : String) : Bool :=
  containsSeq "blood".toList (s.toList.map Char.toLower)

/-- Model of `"blood" in (prop.get("actor") or "").lower()` — the per-element form of
the disallowed-content predicate (an absent `actor` reads as ""). -/
def bloodActorAttr (n : Node) : Bool :=
  lowerHasBlood ((getA n.attrs "actor").getD "")

/-- A disallowed prop-item: an element with tag `prop` whose `actor`
attribute matches the marker. -/
def isBloodProp (n : Node) : Bool :=
  decide (n.tag = "prop") && bloodActorAttr n

/-- The final two steps of the ElementPath patterns of the two detection
scans: a `props` element having a `prop` child with a matching actor. -/
def propsHasBloodPropChild (n : Node) : Bool :=
  decide (n.tag = "props") && anyL isBloodProp n.children

/-- The head of the pattern `.//variant/props/prop` applied at one node: the
node is a `variant` having a `props` child that has a matching `prop` child. -/
def variantHasBloodVPP (n : Node) : Bool :=
  decide (n.tag = "variant") && anyL propsHasBloodPropChild n.children

mutual

/-- Does `q` hold at `n` or at some descendant of `n`? -/
def anyNode (q : Node → Bool) : Node → Bool
  | .mk t a cs => q (.mk t a cs) || anyNodeL q cs

/-- Does `q` hold at some element of `l` or below one? -/
def anyNodeL (q : Node → Bool) : NodeList → Bool
  | .nil => false
  | .cons c l => anyNode q c || anyNodeL q l

end

/-- First scan (update-mod.py lines 28-31): `root.findall(".//variant/props/prop")`
has a match with "blood" in its actor.  `.//` ranges over proper descendants
of the root, so the `variant` is any element strictly below the root. -/
def hasBloodOne (root : Node) : Bool :=
  anyNodeL variantHasBloodVPP root.children

/-- Second scan (update-mod.py lines 35-38): `root.findall(".//props/prop")`
has a match with "blood" in its actor; the `props` is any element strictly
below the root. -/
def hasBloodTwo (root : Node) : Bool :=
  anyNodeL propsHasBloodPropChild root.children

/-- The variable `has_blood` after line 39: the union of the two scans. -/
def has_blood (root : Node) : Bool :=
  hasBloodOne root || hasBloodTwo root

/-!
Stage 4.1 removal (update-mod.py lines 46-54).  The script iterates over
`root.findall(".//props")` — every `props` element strictly below the root —
and filters its children by the actor predicate.  When a `props` becomes
empty the script asks `props.find("..")` for the parent; ElementTree's
`find` only searches below the element it is called on, and by the
documented semantics of ElementPath a `".."` step that tries to go above
the start element yields `None`.  The `if parent is not None` body (the
removal of the emptied container and its `modified = True`) is therefore
dead code: the filtering stage itself never detaches a container and never
sets the modified flag.  We model the stage as the child filtering alone.
-/

mutual

/-- Removal at one element strictly below the root: recurse everywhere,
and filter the children of every `props` element by the actor predicate.
(The script removes a child of a `props` whenever the child's actor matches,
whatever the child's tag is.) -/
def stripN : Node → Node
  | .mk t a cs =>
    let cs' := stripL cs
    if t = "props" then .mk t a (filterL (fun c => ! bloodActorAttr c) cs') else .mk t a cs'

def stripL : NodeList → NodeList
  | .nil => .nil
  | .cons c l => .cons (stripN c) (stripL l)

end

/-- The whole removal stage: `.//props` never matches the root element
itself, so the root's own child list is not filtered. -/
def stripRoot : Node → Node
  | .mk t a cs => .mk t a (stripL cs)

/-!
Stage 4.2 (update-mod.py lines 57-61): for every element matched by
`root.findall(".//variant")` — every `variant` strictly below the root —
default an absent `frequency` attribute to "0" and record a modification.
-/

mutual

/-- Frequency normalization at one element strictly below the root.
Returns the rewritten element and whether any assignment occurred in it
or below it. -/
def normN : Node → Node × Bool
  | .mk t a cs =>
    let p := normL cs
    if t = "variant" ∧ getA a "frequency" = none then
      (.mk t (setA a "frequency" "0") p.1, true)
    else
      (.mk t a p.1, p.2)

def normL : NodeList → NodeList × Bool
  | .nil => (.nil, false)
  | .cons c l =>
    let q := normN c
    let p := normL l
    (.cons q.1 p.1, q.2 || p.2)

end

/-- The whole normalization stage: the root element itself is not matched by
`.//variant`, so its own attributes are never touched. -/
def normRoot : Node → Node × Bool
  | .mk t a cs =>
    let p := normL cs
    (.mk t a p.1, p.2)

/-!
Stage 4.3 (update-mod.py lines 63-111), the inner function
`remove_empty_elements(element)`.  It walks the children of `element`,
collects the ones to drop, and removes them afterwards; each child's fate
is decided independently, so we model the loop as a filter-map.  Only
`variant` and `group` children are recursed into; `props`/`animations`/
`textures` children are dropped exactly when (currently) childless, and
children with any other tag are left untouched.
-/

def isContainerTag (t : String) : Bool :=
  decide (t = "props") || decide (t = "animations") || decide (t = "textures")

/-- The emptiness test of the single-variant group rule
(update-mod.py lines 96-103): the group's only child is a `variant` with no
children, a falsy `file` attribute and `frequency` in the set given by
`{"0", "100"}`. -/
def uselessOnlyVariant : NodeList → Bool
  | .cons v .nil =>
    decide (v.tag = "variant") && isNilL v.children && ! truthy (getA v.attrs "file")
      && (decide (getA v.attrs "frequency" = some "0")
          || decide (getA v.attrs "frequency" = some "100"))
  | _ => false

mutual

/-- The decision `remove_empty_elements` takes for one child of the element
it is visiting: `(none, _)` when the child ends up in `to_remove` (the
Boolean is then irrelevant to the caller, which records a modification
anyway), `(some c, m)` when the processed child `c` stays, with `m` true
when some removal happened inside it. -/
def pruneChild : Node → Option Node × Bool
  | .mk t a cs =>
    if isContainerTag t then
      if isNilL cs then (none, true) else (some (.mk t a cs), false)
    else if t = "variant" then
      let p := pruneKids cs
      if isNilL p.1 ∧ ¬ truthy (getA a "file") ∧ getA a "frequency" = some "0" then
        (none, true)
      else (some (.mk t a p.1), p.2)
    else if t = "group" then
      let p := pruneKids cs
      if isNilL p.1 then (none, true)
      else if uselessOnlyVariant p.1 then (none, true)
      else (some (.mk t a p.1), p.2)
    else (some (.mk t a cs), false)

/-- One pass of `remove_empty_elements` over a child list: keep the
survivors in order, and report whether anything was removed anywhere. -/
def pruneKids : NodeList → NodeList × Bool
  | .nil => (.nil, false)
  | .cons c l =>
    let p := pruneKids l
    match pruneChild c with
    | (none, _) => (p.1, true)
    | (some c', m) => (.cons c' p.1, m || p.2)

end

/-- The call `remove_empty_elements(root)` (made at update-mod.py line 113): the
root element itself is never removed; its children are processed. -/
def remove_empty_elements : Node → Node × Bool
  | .mk t a cs =>
    let p := pruneKids cs
    (.mk t a p.1, p.2)

/-- The function `clean_xml` (update-mod.py lines 10-122), at the level of the document
tree: `none` models the `None` returns ("no changes needed", nothing
written), `some t` models returning the serialized form of `t` with the
fixed XML declaration header.  The modified flag aggregates the dead
filtering branch (never), the frequency assignments, and the prune
removals, exactly as the script's `modified` variable does. -/
def clean_xml (root : Node) : Option Node :=
  if has_blood root then
    let r1 := stripRoot root
    let p2 := normRoot r1
    let p3 := remove_empty_elements p2.1
    if p2.2 || p3.2 then some p3.1 else none
  else none

/-! ### Specification-side predicates over document trees -/

/-- Membership of an element in a child list. -/
inductive MemL (c : Node) : NodeList → Prop where
  | head (l : NodeList) : MemL c (.cons c l)
  | tail (d : Node) (l : NodeList) : MemL c l → MemL c (.cons d l)

/-- Containment `InTree n t`: `n` is `t` itself or a descendant of `t`. -/
inductive InTree (n : Node) : Node → Prop where
  | refl : InTree n n
  | child (c t : Node) : MemL c t.children → InTree n c → InTree n t

/-- Here `n` is a proper descendant of `t` (what an ElementPath `.//` step can
reach from `t`). -/
def ProperIn (n t : Node) : Prop :=
  ∃ c, MemL c t.children ∧ InTree n c

mutual

/-- Every `variant` element in the subtree (the node itself included) has a
non-absent `frequency` attribute. -/
def freqTotal : Node → Bool
  | .mk t a cs => (if t = "variant" then (getA a "frequency").isSome else true) && freqTotalL cs

def freqTotalL : NodeList → Bool
  | .nil => true
  | .cons c l => freqTotal c && freqTotalL l

end

mutual

/-- Every `props` element in the subtree (the node itself included) has no
child whose actor attribute matches the disallowed marker. -/
def cleanProps : Node → Bool
  | .mk t _a cs =>
    (if t = "props" then allL (fun c => ! bloodActorAttr c) cs else true) && cleanPropsL cs

def cleanPropsL : NodeList → Bool
  | .nil => true
  | .cons c l => cleanProps c && cleanPropsL l

end

mutual

/-- The containers the pruner can see are non-empty: every
`props`/`animations`/`textures` element reachable from here through a chain
of `variant`/`group` ancestors has at least one child.  (The pruner visits
exactly the children of the element it starts at and recurses only into
`variant` and `group` children, so this is the region it guarantees.) -/
def reachOK : Node → Bool
  | .mk t _a cs =>
    (if isContainerTag t then ! isNilL cs else true)
      && (if t = "variant" ∨ t = "group" then noEmptyReachL cs else true)

def noEmptyReachL : NodeList → Bool
  | .nil => true
  | .cons c l => reachOK c && noEmptyReachL l

end

/-- The attribute part of the frame relation: along the whole pipeline the
attributes of a surviving element are either untouched, or — for a
`variant` whose `frequency` was absent — extended with `frequency = "0"`. -/
def attrsOKb (tagOld : String) (old new : List (String × String)) : Bool :=
  decide (new = old)
    || (decide (tagOld = "variant") && decide (getA old "frequency" = none)
        && decide (new = setA old "frequency" "0"))

mutual

/-- Frame relation: `embN n o = true` when `n` is obtained from `o` by
deleting whole subtrees (keeping the relative order of the surviving
siblings) and applying at most the frequency-defaulting attribute change
to surviving elements; tags are never changed. -/
def embN : Node → Node → Bool
  | .mk t1 a1 cs1, .mk t2 a2 cs2 =>
    decide (t1 = t2) && attrsOKb t2 a2 a1 && embL cs1 cs2

/-- Relation `embL l1 l2 = true` holds when `l1` is an order-preserving selection of
processed survivors of `l2` (each kept element related by `embN`). -/
def embL : NodeList → NodeList → Bool
  | .nil, .nil => true
  | .nil, .cons _ l2 => embL .nil l2
  | .cons _ _, .nil => false
  | .cons n1 l1, .cons n2 l2 => (embN n1 n2 && embL l1 l2) || embL (.cons n1 l1) l2

end

/-! ### Concrete document trees used as counterexamples and witnesses -/

/-- The document `<actor><props><prop actor="blood"/><prop actor="rock"/></props></actor>`:
the scans find the blood prop, but stripping it leaves the `props`
non-empty, no `variant` lacks a frequency, and nothing is pruned, so the
script's `modified` flag is never set. -/
def tc1 : Node :=
  .mk "actor" []
    (.cons (.mk "props" []
      (.cons (.mk "prop" [("actor", "blood")] .nil)
        (.cons (.mk "prop" [("actor", "rock")] .nil) .nil))) .nil)

/-- The document `<actor><props><prop actor="blood"/></props><variant><prop actor="Gore_blood"/></variant></actor>`:
detection fires on the first prop, but the prop sitting directly under the
`variant` is outside every `props` container and is never removed. -/
def tc2 : Node :=
  .mk "actor" []
    (.cons (.mk "props" [] (.cons (.mk "prop" [("actor", "blood")] .nil) .nil))
      (.cons (.mk "variant" [] (.cons (.mk "prop" [("actor", "Gore_blood")] .nil) .nil))
        .nil))

/-- The tree the pipeline outputs for `tc2`. -/
def tc2out : Node :=
  .mk "actor" []
    (.cons (.mk "variant" [("frequency", "0")]
      (.cons (.mk "prop" [("actor", "Gore_blood")] .nil) .nil)) .nil)

/-- The document `<actor><variant><prop actor="Gore_blood"/></variant></actor>`: a
prop-item directly under a `variant`, with no `props` container between
(the document of spec Example 4). -/
def tc3 : Node :=
  .mk "actor" []
    (.cons (.mk "variant" [] (.cons (.mk "prop" [("actor", "Gore_blood")] .nil) .nil)) .nil)

/-- The document `<actor><group/><variant file="x.xml"/></actor>`: no disallowed content,
but an empty group and a `variant` with no `frequency` attribute. -/
def tw4 : Node :=
  .mk "actor" []
    (.cons (.mk "group" [] .nil) (.cons (.mk "variant" [("file", "x.xml")] .nil) .nil))

/-- The document `<actor><animations><props><prop actor="blood"/></props></animations><variant file="f"/></actor>`:
after stripping, the `props` under `animations` is empty, but the pruner
never looks below `animations`. -/
def tc5 : Node :=
  .mk "actor" []
    (.cons (.mk "animations" []
      (.cons (.mk "props" [] (.cons (.mk "prop" [("actor", "blood")] .nil) .nil)) .nil))
      (.cons (.mk "variant" [("file", "f")] .nil) .nil))

/-- The tree the pipeline outputs for `tc5`: the empty `props` survives. -/
def tc5out : Node :=
  .mk "actor" []
    (.cons (.mk "animations" [] (.cons (.mk "props" [] .nil) .nil))
      (.cons (.mk "variant" [("file", "f"), ("frequency", "0")] .nil) .nil))

/-- The document `<actor><props><prop actor="blood"/><prop actor="rock"/></props><variant/></actor>`:
produces output (the childless variant is defaulted to frequency "0" and
pruned) and keeps a non-empty `props`. -/
def tw5 : Node :=
  .mk "actor" []
    (.cons (.mk "props" []
      (.cons (.mk "prop" [("actor", "blood")] .nil)
        (.cons (.mk "prop" [("actor", "rock")] .nil) .nil)))
      (.cons (.mk "variant" [] .nil) .nil))

/-- The document `<variant file="" frequency="0"/>`: a childless variant that carries a
`file` attribute whose value is the empty string. -/
def vfe : Node :=
  .mk "variant" [("file", ""), ("frequency", "0")] .nil

/-- The document `<actor><variant file="hero_skin.asset"><props><prop actor="blood_pool"/></props></variant></actor>`
(spec Example 2): the variant survives thanks to its `file` attribute. -/
def tw7 : Node :=
  .mk "actor" []
    (.cons (.mk "variant" [("file", "hero_skin.asset")]
      (.cons (.mk "props" [] (.cons (.mk "prop" [("actor", "blood_pool")] .nil) .nil)) .nil))
      .nil)

/-- The document `<actor><props><prop actor="Blood_Splatter_01"/></props></actor>`:
stripping empties the `props`, pruning removes it, output is a bare root. -/
def tw8 : Node :=
  .mk "actor" []
    (.cons (.mk "props" [] (.cons (.mk "prop" [("actor", "Blood_Splatter_01")] .nil) .nil))
      .nil)

/-- The document `<actor><group><variant><props><prop actor="blood"/></props></variant></group></actor>`
(spec Example 1): group, variant and props all collapse. -/
def tw10 : Node :=
  .mk "actor" []
    (.cons (.mk "group" []
      (.cons (.mk "variant" []
        (.cons (.mk "props" [] (.cons (.mk "prop" [("actor", "blood")] .nil) .nil)) .nil))
        .nil)) .nil)

/-- The tree the pipeline outputs for `tw5`. -/
def tw5out : Node :=
  .mk "actor" []
    (.cons (.mk "props" [] (.cons (.mk "prop" [("actor", "rock")] .nil) .nil)) .nil)

/-- The tree the pipeline outputs for `tw7`. -/
def tw7out : Node :=
  .mk "actor" []
    (.cons (.mk "variant" [("file", "hero_skin.asset"), ("frequency", "0")] .nil) .nil)

/-- The tree the pipeline outputs for `tw8`: a bare root. -/
def tw8out : Node :=
  .mk "actor" [] .nil

/-- The tree the pipeline outputs for `tw10`: a bare root. -/
def tw10out : Node :=
  .mk "actor" [] .nil

/-! ### Basic lemmas about the search primitives -/

theorem anyL_of_mem (p : Node → Bool) (c : Node) (l : NodeList) :
    MemL c l → p c = true → anyL p l = true := by
  intro h hp
  induction h with
  | head l => simp [anyL, hp]
  | tail d l _ ih => simp [anyL, ih]

theorem allL_mem (p : Node → Bool) (c : Node) (l : NodeList) :
    allL p l = true → MemL c l → p c = true := by
  intro h hm
  induction hm with
  | head l => simp [allL] at h; exact h.1
  | tail d l _ ih => simp [allL] at h; exact ih h.2

theorem anyNode_self (q : Node → Bool) (n : Node) (hq : q n = true) :
    anyNode q n = true := by
  cases n with
  | mk t a cs => simp [anyNode, hq]

theorem anyNode_of_in (q : Node → Bool) (m n : Node) :
    InTree m n → q m = true → anyNode q n = true := by
  intro h hq
  induction h with
  | refl => exact anyNode_self q m hq
  | child c t hc _ ih =>
    cases t with
    | mk t a cs =>
      have hl : anyNodeL q cs = true := by
        clear hq
        simp only [Node.children] at hc
        induction hc with
        | head l => simp [anyNodeL, ih]
        | tail d l _ ih2 => simp [anyNodeL, ih2]
      simp [anyNode, hl]

theorem anyNodeL_of_in (q : Node → Bool) (m c : Node) (l : NodeList) :
    MemL c l → InTree m c → q m = true → anyNodeL q l = true := by
  intro hc hin hq
  induction hc with
  | head l => simp [anyNodeL, anyNode_of_in q m c hin hq]
  | tail d l _ ih => simp [anyNodeL, ih]

theorem anyL_to_mem (p : Node → Bool) :
    (l : NodeList) → anyL p l = true → ∃ c, MemL c l ∧ p c = true
  | .nil, h => by simp [anyL] at h
  | .cons c l, h => by
    simp only [anyL, Bool.or_eq_true] at h
    cases h with
    | inl h => exact ⟨c, MemL.head l, h⟩
    | inr h =>
      obtain ⟨d, hd, hp⟩ := anyL_to_mem p l h
      exact ⟨d, MemL.tail c l hd, hp⟩

theorem InTree.trans (a b c : Node) : InTree a b → InTree b c → InTree a c := by
  intro hab hbc
  induction hbc with
  | refl => exact hab
  | child d t hd _ ih => exact InTree.child d t hd ih

mutual

theorem anyNode_to_in (q : Node → Bool) (n : Node) :
    anyNode q n = true → ∃ m, InTree m n ∧ q m = true := by
  cases n with
  | mk t a cs =>
    intro h
    simp only [anyNode, Bool.or_eq_true] at h
    cases h with
    | inl h => exact ⟨.mk t a cs, InTree.refl, h⟩
    | inr h =>
      obtain ⟨m, c, hc, hin, hq⟩ := anyNodeL_to_in q cs h
      exact ⟨m, InTree.child c (.mk t a cs) hc hin, hq⟩

theorem anyNodeL_to_in (q : Node → Bool) (l : NodeList) :
    anyNodeL q l = true → ∃ m c, MemL c l ∧ InTree m c ∧ q m = true := by
  cases l with
  | nil => intro h; simp [anyNodeL] at h
  | cons c l =>
    intro h
    simp only [anyNodeL, Bool.or_eq_true] at h
    cases h with
    | inl h =>
      obtain ⟨m, hin, hq⟩ := anyNode_to_in q c h
      exact ⟨m, c, MemL.head l, hin, hq⟩
    | inr h =>
      obtain ⟨m, d, hd, hin, hq⟩ := anyNodeL_to_in q l h
      exact ⟨m, d, MemL.tail c l hd, hin, hq⟩

end

/-- Every match of the first scan pattern `.//variant/props/prop` is also a
match of the second scan pattern `.//props/prop`: the `props` step of the
first pattern is itself a proper descendant of the root. -/
theorem hasBloodOne_le (t : Node) : hasBloodOne t = true → hasBloodTwo t = true := by
  intro h
  obtain ⟨v, c, hc, hin, hv⟩ := anyNodeL_to_in variantHasBloodVPP t.children h
  simp only [variantHasBloodVPP, Bool.and_eq_true, decide_eq_true_eq] at hv
  obtain ⟨p, hp, hpb⟩ := anyL_to_mem propsHasBloodPropChild v.children hv.2
  have hpv : InTree p v := InTree.child p v hp InTree.refl
  exact anyNodeL_of_in propsHasBloodPropChild p c t.children hc
    (InTree.trans p v c hpv hin) hpb

/-! ### Attribute-map lemmas -/

theorem getA_setA_self (a : List (String × String)) (k v : String) :
    getA (setA a k v) k = some v := by
  induction a with
  | nil => simp [setA, getA]
  | cons kv rest ih =>
    obtain ⟨k', v'⟩ := kv
    by_cases h : k' = k
    · simp [setA, h, getA]
    · simp [setA, h, getA, ih]

theorem getA_setA_ne (a : List (String × String)) (k v k' : String) (h : k' ≠ k) :
    getA (setA a k v) k' = getA a k' := by
  have hk : ¬ k = k' := fun hh => h hh.symm
  induction a with
  | nil => simp [setA, getA, hk]
  | cons kv rest ih =>
    obtain ⟨k0, v0⟩ := kv
    by_cases h0 : k0 = k
    · subst h0
      simp [setA, getA, hk]
    · simp [setA, h0, getA, ih]

/-! ### Filtering keeps lists clean -/

theorem allL_filterL (p : Node → Bool) :
    (l : NodeList) → allL p (filterL p l) = true
  | .nil => by simp [filterL, allL]
  | .cons c l => by
    by_cases h : p c = true
    · simp [filterL, h, allL, allL_filterL p l]
    · simp only [Bool.not_eq_true] at h
      simp [filterL, h, allL_filterL p l]

theorem allL_filter_sub (p q : Node → Bool) :
    (l : NodeList) → allL q l = true → allL q (filterL p l) = true
  | .nil, _ => by simp [filterL, allL]
  | .cons c l, h => by
    simp only [allL, Bool.and_eq_true] at h
    by_cases hp : p c = true
    · simp [filterL, hp, allL, h.1, allL_filter_sub p q l h.2]
    · simp only [Bool.not_eq_true] at hp
      simp [filterL, hp, allL_filter_sub p q l h.2]

theorem cleanPropsL_eq_allL : (l : NodeList) → cleanPropsL l = allL cleanProps l
  | .nil => by simp [cleanPropsL, allL]
  | .cons c l => by simp [cleanPropsL, allL, cleanPropsL_eq_allL l]

/-! ### The stripping stage leaves every props container clean -/

mutual

theorem stripN_clean : (n : Node) → cleanProps (stripN n) = true
  | .mk t a cs => by
    have hl := stripL_clean cs
    by_cases ht : t = "props"
    · have hf : cleanPropsL (filterL (fun c => ! bloodActorAttr c) (stripL cs)) = true := by
        rw [cleanPropsL_eq_allL] at hl ⊢
        exact allL_filter_sub _ _ _ hl
      simp [stripN, ht, cleanProps, allL_filterL, hf]
    · simp [stripN, ht, cleanProps, hl]

theorem stripL_clean : (l : NodeList) → cleanPropsL (stripL l) = true
  | .nil => by simp [stripL, cleanPropsL]
  | .cons c l => by simp [stripL, cleanPropsL, stripN_clean c, stripL_clean l]

end

/-! ### Shape of the normalization stage -/

theorem normN_tag (n : Node) : (normN n).1.tag = n.tag := by
  cases n with
  | mk t a cs =>
    by_cases h : t = "variant" ∧ getA a "frequency" = none
    · simp [normN, h, Node.tag]
    · simp [normN, h, Node.tag]

theorem normN_actor (n : Node) : bloodActorAttr (normN n).1 = bloodActorAttr n := by
  cases n with
  | mk t a cs =>
    by_cases h : t = "variant" ∧ getA a "frequency" = none
    · have hne : ("actor" : String) ≠ "frequency" := by decide
      simp [normN, h, bloodActorAttr, Node.attrs, getA_setA_ne a "frequency" "0" "actor" hne]
    · simp [normN, h, bloodActorAttr, Node.attrs]

theorem normN_children (n : Node) : (normN n).1.children = (normL n.children).1 := by
  cases n with
  | mk t a cs =>
    by_cases h : t = "variant" ∧ getA a "frequency" = none
    · simp [normN, h, Node.children]
    · simp [normN, h, Node.children]

theorem normL_bloodAll :
    (l : NodeList) → allL (fun c => ! bloodActorAttr c) l = true →
      allL (fun c => ! bloodActorAttr c) (normL l).1 = true
  | .nil, _ => by simp [normL, allL]
  | .cons c l, h => by
    simp only [allL, Bool.and_eq_true] at h
    simp [normL, allL, normN_actor c, h.1, normL_bloodAll l h.2]

/-! ### Normalization preserves clean props containers -/

mutual

theorem normN_clean : (n : Node) → cleanProps n = true → cleanProps (normN n).1 = true
  | .mk t a cs, h => by
    simp only [cleanProps, Bool.and_eq_true] at h
    by_cases hv : t = "variant" ∧ getA a "frequency" = none
    · have hvp : ¬ t = "props" := by
        intro hp; rw [hp] at hv; exact absurd hv.1 (by decide)
      simp [normN, hv, cleanProps, hvp, normL_clean cs h.2]
    · by_cases ht : t = "props"
      · have hall : allL (fun c => ! bloodActorAttr c) cs = true := by
          have := h.1; simpa [ht] using this
        simp [normN, hv, cleanProps, ht, normL_bloodAll cs hall, normL_clean cs h.2]
      · simp [normN, hv, cleanProps, ht, normL_clean cs h.2]

theorem normL_clean : (l : NodeList) → cleanPropsL l = true → cleanPropsL (normL l).1 = true
  | .nil, _ => by simp [normL, cleanPropsL]
  | .cons c l, h => by
    simp only [cleanPropsL, Bool.and_eq_true] at h
    simp [normL, cleanPropsL, normN_clean c h.1, normL_clean l h.2]

end

/-! ### Shape of the pruning stage -/

/-- A survivor of `pruneChild` is either the original child untouched (a
non-empty container, or a child with an unrecognized tag) or the recursed
child (a kept `variant` or `group` whose children went through `pruneKids`);
either way its tag and attributes are the original ones. -/
theorem pruneChild_shape (t : String) (a : List (String × String)) (cs : NodeList)
    (c' : Node) (hp : (pruneChild (.mk t a cs)).1 = some c') :
    (c' = .mk t a cs ∧ (isContainerTag t = true ∨ (t ≠ "variant" ∧ t ≠ "group"))) ∨
      ((t = "variant" ∨ t = "group") ∧ c' = .mk t a (pruneKids cs).1) := by
  simp only [pruneChild] at hp
  split at hp
  · split at hp
    · simp at hp
    · simp only [Option.some.injEq] at hp
      exact Or.inl ⟨hp.symm, Or.inl (by assumption)⟩
  · split at hp
    · split at hp
      · simp at hp
      · simp only [Option.some.injEq] at hp
        exact Or.inr ⟨Or.inl (by assumption), hp.symm⟩
    · split at hp
      · split at hp
        · simp at hp
        · split at hp
          · simp at hp
          · simp only [Option.some.injEq] at hp
            exact Or.inr ⟨Or.inr (by assumption), hp.symm⟩
      · simp only [Option.some.injEq] at hp
        rename_i h1 h2 h3
        exact Or.inl ⟨hp.symm, Or.inr ⟨h2, h3⟩⟩

/-- A surviving container child is the original one, in particular still
non-empty exactly when it was; and a non-empty container always survives. -/
theorem pruneChild_container (t : String) (a : List (String × String)) (cs : NodeList)
    (hct : isContainerTag t = true) (hn : isNilL cs = false) :
    (pruneChild (.mk t a cs)).1 = some (.mk t a cs) := by
  simp [pruneChild, hct, hn]

/-! ### Pruning preserves clean props containers -/

mutual

theorem pruneChild_clean : (c c' : Node) → cleanProps c = true →
    (pruneChild c).1 = some c' → cleanProps c' = true
  | .mk t a cs, c', h, hp => by
    simp only [cleanProps, Bool.and_eq_true] at h
    rcases pruneChild_shape t a cs c' hp with ⟨he, _⟩ | ⟨hvg, he⟩
    · rw [he]
      simp [cleanProps, h.1, h.2]
    · rw [he]
      have hvp : ¬ t = "props" := by
        rcases hvg with hv | hg
        · rw [hv]; decide
        · rw [hg]; decide
      simp [cleanProps, hvp, pruneKids_clean cs h.2]

theorem pruneKids_clean : (l : NodeList) → cleanPropsL l = true →
    cleanPropsL (pruneKids l).1 = true
  | .nil, _ => by simp [pruneKids, cleanPropsL]
  | .cons c l, h => by
    simp only [cleanPropsL, Bool.and_eq_true] at h
    rcases hm : pruneChild c with ⟨oc, m⟩
    cases oc with
    | none => simp [pruneKids, hm, pruneKids_clean l h.2]
    | some c' =>
      have h1 : (pruneChild c).1 = some c' := by rw [hm]
      simp [pruneKids, hm, cleanPropsL, pruneChild_clean c c' h.1 h1,
        pruneKids_clean l h.2]

end

/-! ### A clean tree triggers neither detection scan -/

theorem allL_not_blood_no_prop :
    (l : NodeList) → allL (fun c => ! bloodActorAttr c) l = true →
      anyL isBloodProp l = false
  | .nil, _ => by simp [anyL]
  | .cons c l, h => by
    simp only [allL, Bool.and_eq_true, Bool.not_eq_true'] at h
    simp [anyL, isBloodProp, h.1, allL_not_blood_no_prop l h.2]

mutual

theorem cleanProps_no_det : (n : Node) → cleanProps n = true →
    anyNode propsHasBloodPropChild n = false
  | .mk t a cs, h => by
    simp only [cleanProps, Bool.and_eq_true] at h
    have hself : propsHasBloodPropChild (.mk t a cs) = false := by
      by_cases ht : t = "props"
      · have hall : allL (fun c => ! bloodActorAttr c) cs = true := by
          have := h.1; simpa [ht] using this
        simp [propsHasBloodPropChild, Node.children,
          allL_not_blood_no_prop cs hall]
      · simp [propsHasBloodPropChild, Node.tag, ht]
    simp [anyNode, hself, cleanPropsL_no_det cs h.2]

theorem cleanPropsL_no_det : (l : NodeList) → cleanPropsL l = true →
    anyNodeL propsHasBloodPropChild l = false
  | .nil, _ => by simp [anyNodeL]
  | .cons c l, h => by
    simp only [cleanPropsL, Bool.and_eq_true] at h
    simp [anyNodeL, cleanProps_no_det c h.1, cleanPropsL_no_det l h.2]

end

/-! ### Unfolding the pipeline on a produced output -/

theorem clean_xml_some (t t' : Node) (h : clean_xml t = some t') :
    has_blood t = true ∧ t' = (remove_empty_elements (normRoot (stripRoot t)).1).1 := by
  simp only [clean_xml] at h
  split at h
  · split at h
    · simp only [Option.some.injEq] at h
      exact ⟨by assumption, h.symm⟩
    · simp at h
  · simp at h

theorem clean_xml_out (tg : String) (ta : List (String × String)) (tcs : NodeList)
    (t' : Node) (h : clean_xml (.mk tg ta tcs) = some t') :
    t' = .mk tg ta (pruneKids (normL (stripL tcs)).1).1 := by
  have h2 := (clean_xml_some _ t' h).2
  simp only [stripRoot, normRoot, remove_empty_elements] at h2
  exact h2

/-- The tree a run writes never triggers the detection scans again. -/
theorem clean_xml_no_blood (t t' : Node) (h : clean_xml t = some t') :
    has_blood t' = false := by
  cases t with
  | mk tg ta tcs =>
    have hout := clean_xml_out tg ta tcs t' h
    have hclean : cleanPropsL (pruneKids (normL (stripL tcs)).1).1 = true :=
      pruneKids_clean _ (normL_clean _ (stripL_clean tcs))
    have htwo : hasBloodTwo t' = false := by
      rw [hout]
      simpa [hasBloodTwo, Node.children] using cleanPropsL_no_det _ hclean
    have hone : hasBloodOne t' = false := by
      cases h1 : hasBloodOne t' with
      | false => rfl
      | true => rw [hasBloodOne_le t' h1] at htwo; cases htwo
    simp [has_blood, hone, htwo]

/-! ### Frequency totality -/

mutual

theorem normN_freq : (n : Node) → freqTotal (normN n).1 = true
  | .mk t a cs => by
    by_cases h : t = "variant" ∧ getA a "frequency" = none
    · simp [normN, h, freqTotal, h.1, getA_setA_self, normL_freq cs]
    · by_cases hv : t = "variant"
      · have hf : ¬ getA a "frequency" = none := fun hn => h ⟨hv, hn⟩
        cases hg : getA a "frequency" with
        | none => exact absurd hg hf
        | some v => simp [normN, h, freqTotal, hv, hg, normL_freq cs]
      · simp [normN, h, freqTotal, hv, normL_freq cs]

theorem normL_freq : (l : NodeList) → freqTotalL (normL l).1 = true
  | .nil => by simp [normL, freqTotalL]
  | .cons c l => by simp [normL, freqTotalL, normN_freq c, normL_freq l]

end

mutual

theorem pruneChild_freq : (c c' : Node) → freqTotal c = true →
    (pruneChild c).1 = some c' → freqTotal c' = true
  | .mk t a cs, c', h, hp => by
    simp only [freqTotal, Bool.and_eq_true] at h
    rcases pruneChild_shape t a cs c' hp with ⟨he, _⟩ | ⟨_, he⟩
    · rw [he]; simp [freqTotal, h.1, h.2]
    · rw [he]
      simp only [freqTotal, Bool.and_eq_true]
      exact ⟨h.1, pruneKids_freq cs h.2⟩

theorem pruneKids_freq : (l : NodeList) → freqTotalL l = true →
    freqTotalL (pruneKids l).1 = true
  | .nil, _ => by simp [pruneKids, freqTotalL]
  | .cons c l, h => by
    simp only [freqTotalL, Bool.and_eq_true] at h
    rcases hm : pruneChild c with ⟨oc, m⟩
    cases oc with
    | none => simp [pruneKids, hm, pruneKids_freq l h.2]
    | some c' =>
      have h1 : (pruneChild c).1 = some c' := by rw [hm]
      simp [pruneKids, hm, freqTotalL, pruneChild_freq c c' h.1 h1,
        pruneKids_freq l h.2]

end

/-! ### No empty container in the pruned region -/

mutual

theorem pruneChild_reach : (c c' : Node) → (pruneChild c).1 = some c' →
    reachOK c' = true
  | .mk t a cs, c', hp => by
    rcases pruneChild_shape t a cs c' hp with ⟨he, htag⟩ | ⟨hvg, he⟩
    · have hvg2 : ¬ (t = "variant" ∨ t = "group") := by
        rcases htag with hct | ⟨hv, hg⟩
        · intro hx
          rcases hx with hx | hx <;> rw [hx] at hct <;> simp [isContainerTag] at hct
        · intro hx
          rcases hx with hx | hx
          · exact hv hx
          · exact hg hx
      by_cases hct : isContainerTag t = true
      · have hn : isNilL cs = false := by
          cases hn : isNilL cs with
          | false => rfl
          | true => simp [pruneChild, hct, hn] at hp
        rw [he]
        simp [reachOK, hct, hn, hvg2]
      · simp only [Bool.not_eq_true] at hct
        rw [he]
        simp [reachOK, hct, hvg2]
    · rw [he]
      have hct : isContainerTag t = false := by
        rcases hvg with hx | hx <;> rw [hx] <;> rfl
      simp [reachOK, hct, hvg, pruneKids_reach cs]

theorem pruneKids_reach : (l : NodeList) → noEmptyReachL (pruneKids l).1 = true
  | .nil => by simp [pruneKids, noEmptyReachL]
  | .cons c l => by
    rcases hm : pruneChild c with ⟨oc, m⟩
    cases oc with
    | none => simp [pruneKids, hm, pruneKids_reach l]
    | some c' =>
      have h1 : (pruneChild c).1 = some c' := by rw [hm]
      simp [pruneKids, hm, noEmptyReachL, pruneChild_reach c c' h1,
        pruneKids_reach l]

end

/-! ### The frame relation: reflexivity, skipping, transitivity -/

theorem embL_nil : (l : NodeList) → embL .nil l = true
  | .nil => by simp [embL]
  | .cons c l => by simp [embL, embL_nil l]

theorem attrsOKb_refl (t : String) (a : List (String × String)) :
    attrsOKb t a a = true := by
  simp [attrsOKb]

mutual

theorem embN_refl : (n : Node) → embN n n = true
  | .mk t a cs => by simp [embN, attrsOKb_refl, embL_refl cs]

theorem embL_refl : (l : NodeList) → embL l l = true
  | .nil => by simp [embL]
  | .cons c l => by simp [embL, embN_refl c, embL_refl l]

end

theorem embL_skip (l1 : NodeList) (c : Node) (l2 : NodeList)
    (h : embL l1 l2 = true) : embL l1 (.cons c l2) = true := by
  cases l1 with
  | nil => simp [embL, embL_nil]
  | cons n1 l1 => simp [embL, h]

theorem embL_filter (p : Node → Bool) :
    (l : NodeList) → embL (filterL p l) l = true
  | .nil => by simp [filterL, embL]
  | .cons c l => by
    by_cases h : p c = true
    · simp [filterL, h, embL, embN_refl c, embL_filter p l]
    · simp only [Bool.not_eq_true] at h
      simp only [filterL, h, Bool.false_eq_true, if_false]
      exact embL_skip _ c _ (embL_filter p l)

theorem attrsOKb_trans (t : String) (a1 a2 a3 : List (String × String))
    (h12 : attrsOKb t a2 a1 = true) (h23 : attrsOKb t a3 a2 = true) :
    attrsOKb t a3 a1 = true := by
  simp only [attrsOKb, Bool.or_eq_true, Bool.and_eq_true, decide_eq_true_eq] at h12 h23 ⊢
  rcases h12 with h12 | ⟨⟨hv, hf2⟩, hs1⟩
  · rcases h23 with h23 | ⟨⟨hv, hf3⟩, hs2⟩
    · exact Or.inl (h12.trans h23)
    · exact Or.inr ⟨⟨hv, hf3⟩, h12.trans hs2⟩
  · rcases h23 with h23 | ⟨⟨_, hf3⟩, hs2⟩
    · rw [h23] at hf2 hs1
      exact Or.inr ⟨⟨hv, hf2⟩, hs1⟩
    · rw [hs2] at hf2
      rw [getA_setA_self] at hf2
      cases hf2

mutual

theorem embN_trans : (n1 n2 n3 : Node) → embN n1 n2 = true → embN n2 n3 = true →
    embN n1 n3 = true
  | .mk t1 a1 cs1, .mk t2 a2 cs2, .mk t3 a3 cs3, h12, h23 => by
    simp only [embN, Bool.and_eq_true, decide_eq_true_eq] at h12 h23 ⊢
    refine ⟨⟨h12.1.1.trans h23.1.1, ?_⟩, embL_trans cs1 cs2 cs3 h12.2 h23.2⟩
    have ht : t2 = t3 := h23.1.1
    rw [← ht]
    exact attrsOKb_trans t2 a1 a2 a3 h12.1.2 (by rw [ht]; exact h23.1.2)

theorem embL_trans : (l1 l2 l3 : NodeList) → embL l1 l2 = true → embL l2 l3 = true →
    embL l1 l3 = true
  | l1, l2, .nil, h12, h23 => by
    cases l2 with
    | nil =>
      cases l1 with
      | nil => simp [embL]
      | cons n1 l1 => simp [embL] at h12
    | cons n2 l2 => simp [embL] at h23
  | l1, l2, .cons c3 l3, h12, h23 => by
    cases l2 with
    | nil =>
      cases l1 with
      | nil => exact embL_nil _
      | cons n1 l1 => simp [embL] at h12
    | cons n2 l2 =>
      simp only [embL, Bool.or_eq_true, Bool.and_eq_true] at h23
      rcases h23 with ⟨hh, ht⟩ | hskip
      · cases l1 with
        | nil => exact embL_nil _
        | cons n1 l1 =>
          simp only [embL, Bool.or_eq_true, Bool.and_eq_true] at h12
          rcases h12 with ⟨hh1, ht1⟩ | hskip1
          · have hn := embN_trans n1 n2 c3 hh1 hh
            have hl := embL_trans l1 l2 l3 ht1 ht
            simp [embL, hn, hl]
          · have hl := embL_trans (.cons n1 l1) l2 l3 hskip1 ht
            exact embL_skip _ c3 _ hl
      · have hl := embL_trans l1 (.cons n2 l2) l3 h12 hskip
        exact embL_skip _ c3 _ hl

end

/-! ### Each pipeline stage respects the frame relation -/

mutual

theorem embN_strip : (n : Node) → embN (stripN n) n = true
  | .mk t a cs => by
    by_cases ht : t = "props"
    · subst ht
      have h1 : embL (filterL (fun c => ! bloodActorAttr c) (stripL cs)) (stripL cs) = true :=
        embL_filter _ (stripL cs)
      have h2 := embL_trans _ _ _ h1 (embL_strip cs)
      have hs : stripN (.mk "props" a cs)
          = .mk "props" a (filterL (fun c => ! bloodActorAttr c) (stripL cs)) := by
        simp [stripN]
      rw [hs]
      simp [embN, attrsOKb_refl, h2]
    · have h2 := embL_strip cs
      have hs : stripN (.mk t a cs) = .mk t a (stripL cs) := by
        simp [stripN, ht]
      rw [hs]
      simp [embN, attrsOKb_refl, h2]

theorem embL_strip : (l : NodeList) → embL (stripL l) l = true
  | .nil => by simp [stripL, embL]
  | .cons c l => by simp [stripL, embL, embN_strip c, embL_strip l]

end

mutual

theorem embN_norm : (n : Node) → embN (normN n).1 n = true
  | .mk t a cs => by
    by_cases h : t = "variant" ∧ getA a "frequency" = none
    · obtain ⟨hv, hf⟩ := h
      subst hv
      have hn : (normN (.mk "variant" a cs)).1
          = .mk "variant" (setA a "frequency" "0") (normL cs).1 := by
        simp [normN, hf]
      rw [hn]
      have ha : attrsOKb "variant" a (setA a "frequency" "0") = true := by
        simp [attrsOKb, hf]
      have hrec := embL_norm cs
      simp [embN, ha, hrec]
    · have hn : (normN (.mk t a cs)).1 = .mk t a (normL cs).1 := by
        simp [normN, h]
      rw [hn]
      have hrec := embL_norm cs
      simp [embN, attrsOKb_refl, hrec]

theorem embL_norm : (l : NodeList) → embL (normL l).1 l = true
  | .nil => by simp [normL, embL]
  | .cons c l => by simp [normL, embL, embN_norm c, embL_norm l]

end

mutual

theorem embN_prune : (c c' : Node) → (pruneChild c).1 = some c' → embN c' c = true
  | .mk t a cs, c', hp => by
    rcases pruneChild_shape t a cs c' hp with ⟨he, _⟩ | ⟨_, he⟩
    · rw [he]; exact embN_refl _
    · rw [he]
      simp [embN, attrsOKb_refl, embL_prune cs]

theorem embL_prune : (l : NodeList) → embL (pruneKids l).1 l = true
  | .nil => by simp [pruneKids, embL]
  | .cons c l => by
    rcases hm : pruneChild c with ⟨oc, m⟩
    cases oc with
    | none =>
      simp only [pruneKids, hm]
      exact embL_skip _ c _ (embL_prune l)
    | some c' =>
      have h1 : (pruneChild c).1 = some c' := by rw [hm]
      simp [pruneKids, hm, embL, embN_prune c c' h1, embL_prune l]

end

/-- The whole pipeline output embeds in the input: survivors keep their
relative order, tags are unchanged, and the only attribute edit is the
frequency defaulting on variants. -/
theorem clean_xml_emb (t t' : Node) (h : clean_xml t = some t') :
    embN t' t = true := by
  cases t with
  | mk tg ta tcs =>
    have hout := clean_xml_out tg ta tcs t' h
    have h1 : embL (stripL tcs) tcs = true := embL_strip tcs
    have h2 : embL (normL (stripL tcs)).1 (stripL tcs) = true := embL_norm _
    have h3 : embL (pruneKids (normL (stripL tcs)).1).1 (normL (stripL tcs)).1 = true :=
      embL_prune _
    have hl := embL_trans _ _ _ (embL_trans _ _ _ h3 h2) h1
    rw [hout]
    simp [embN, attrsOKb_refl, hl]

/-! ### Detection implies a disallowed prop-item is present -/

theorem anyNode_of_childrenL (q : Node → Bool) (t : Node)
    (h : anyNodeL q t.children = true) : anyNode q t = true := by
  cases t with
  | mk tg a cs =>
    simp only [Node.children] at h
    simp [anyNode, h]

theorem propsHBC_blood (n : Node) (h : propsHasBloodPropChild n = true) :
    anyNode isBloodProp n = true := by
  simp only [propsHasBloodPropChild, Bool.and_eq_true, decide_eq_true_eq] at h
  obtain ⟨c, hc, hb⟩ := anyL_to_mem isBloodProp n.children h.2
  exact anyNode_of_in isBloodProp c n (InTree.child c n hc InTree.refl) hb

theorem has_blood_to_blood (t : Node) (h : has_blood t = true) :
    anyNode isBloodProp t = true := by
  have htwo : hasBloodTwo t = true := by
    simp only [has_blood, Bool.or_eq_true] at h
    rcases h with h | h
    · exact hasBloodOne_le t h
    · exact h
  obtain ⟨m, c, hc, hin, hq⟩ := anyNodeL_to_in propsHasBloodPropChild t.children htwo
  obtain ⟨p, hpin, hpb⟩ := anyNode_to_in isBloodProp m (propsHBC_blood m hq)
  exact anyNode_of_childrenL isBloodProp t
    (anyNodeL_of_in isBloodProp p c t.children hc
      (InTree.trans p m c hpin hin) hpb)

/-! ### Drop conditions of the pruner, in iff form -/

theorem pruneChild_variant_iff (a : List (String × String)) (cs : NodeList) :
    (pruneChild (.mk "variant" a cs)).1 = none ↔
      (isNilL (pruneKids cs).1 = true ∧ truthy (getA a "file") = false
        ∧ getA a "frequency" = some "0") := by
  have hct : isContainerTag "variant" = false := rfl
  by_cases hc : isNilL (pruneKids cs).1 = true ∧ ¬ truthy (getA a "file") = true
      ∧ getA a "frequency" = some "0"
  · simp only [pruneChild, hct, Bool.false_eq_true, if_false, if_true, hc]
    simp only [Bool.not_eq_true] at hc
    simp [hc]
  · simp only [pruneChild, hct, Bool.false_eq_true, if_false, hc, if_true]
    simp only [Bool.not_eq_true] at hc
    simpa using hc

theorem pruneChild_group_iff (a : List (String × String)) (cs : NodeList) :
    (pruneChild (.mk "group" a cs)).1 = none ↔
      (isNilL (pruneKids cs).1 = true ∨ uselessOnlyVariant (pruneKids cs).1 = true) := by
  have hct : isContainerTag "group" = false := rfl
  have hv : ¬ ("group" : String) = "variant" := by decide
  by_cases h1 : isNilL (pruneKids cs).1 = true
  · simp [pruneChild, hct, hv, h1]
  · by_cases h2 : uselessOnlyVariant (pruneKids cs).1 = true
    · simp [pruneChild, hct, hv, h1, h2]
    · simp [pruneChild, hct, hv, h1, h2]

/-! ### Claim theorems -/

/-- C1: the claim states that whenever the content filter finds a
disallowed prop-item, the pipeline serializes and writes the document.
The code violates this: on `tc1` the scans find the blood prop (and the
filter removes it in memory), but removing a prop never sets the
`modified` flag — only the dead empty-`props` branch, the frequency
defaulting and the pruner do — so `clean_xml` returns `None` and no file
is written, contradicting its own docstring ("Returns cleaned XML as a
string or None if no changes were needed"). -/
theorem c1_blood_found_no_output :
    has_blood tc1 = true ∧ clean_xml tc1 = none :=
  ⟨rfl, rfl⟩

/-- C2: the claim states that every produced output contains zero
disallowed prop-items at any depth, including prop-items directly under a
`variant`.  The code violates this: on `tc2` output is produced, yet the
prop with actor "Gore_blood" sitting directly under the `variant` (outside
every `props` container) survives in the output, because the removal step
only filters children of `props` elements. -/
theorem c2_blood_prop_survives :
    clean_xml tc2 = some tc2out ∧ anyNode isBloodProp tc2out = true :=
  ⟨rfl, rfl⟩

/-- C3 counterexample: `tc3` contains a disallowed prop-item (directly
under a `variant`, no `props` in between), yet both scans miss it —
`.//variant/props/prop` and `.//props/prop` each require a `props` parent —
so the document is treated as containing no disallowed content and the
pipeline halts. -/
theorem c3_counterexample :
    anyNode isBloodProp tc3 = true ∧ has_blood tc3 = false ∧ clean_xml tc3 = none :=
  ⟨rfl, rfl, rfl⟩

/-- C3 amended: the detection scan fires exactly when some `props` element
strictly below the root has a `prop` child whose actor matches the marker;
a prop-item directly under a `variant` with no intervening `props`
container is never detected. -/
theorem c3_detection_characterization (t : Node) :
    has_blood t = true ↔
      ∃ n, ProperIn n t ∧ n.tag = "props" ∧ anyL isBloodProp n.children = true := by
  constructor
  · intro h
    have htwo : hasBloodTwo t = true := by
      simp only [has_blood, Bool.or_eq_true] at h
      rcases h with h | h
      · exact hasBloodOne_le t h
      · exact h
    obtain ⟨m, c, hc, hin, hq⟩ := anyNodeL_to_in propsHasBloodPropChild t.children htwo
    simp only [propsHasBloodPropChild, Bool.and_eq_true, decide_eq_true_eq] at hq
    exact ⟨m, ⟨c, hc, hin⟩, hq.1, hq.2⟩
  · rintro ⟨n, ⟨c, hc, hin⟩, ht, ha⟩
    have hq : propsHasBloodPropChild n = true := by
      simp [propsHasBloodPropChild, ht, ha]
    have htwo : hasBloodTwo t = true :=
      anyNodeL_of_in propsHasBloodPropChild n c t.children hc hin hq
    simp [has_blood, htwo]

/-- C4: a tree with no disallowed prop-item anywhere (root included)
triggers neither scan, so the pipeline signals "not modified" and produces
no output, whatever other anomalies (missing frequencies, empty groups)
the tree contains; the early return happens before any mutation. -/
theorem c4_no_blood_no_output (t : Node) (h : anyNode isBloodProp t = false) :
    clean_xml t = none := by
  have hb : has_blood t = false := by
    cases hb : has_blood t with
    | false => rfl
    | true => rw [has_blood_to_blood t hb] at h; cases h
  simp [clean_xml, hb]

/-- C4 witness: `tw4` has an empty group and a variant with no frequency,
but no disallowed content, and indeed produces no output. -/
theorem c4_no_blood_no_output_w : clean_xml tw4 = none :=
  c4_no_blood_no_output tw4 rfl

/-- C5 counterexample: `tc5` produces output, and the output still contains
an empty `props` container — it sits below `animations`, and the pruner
recurses only into `variant` and `group` children, never into containers. -/
theorem c5_counterexample :
    clean_xml tc5 = some tc5out
      ∧ anyNode (fun n => isContainerTag n.tag && isNilL n.children) tc5out = true :=
  ⟨rfl, rfl⟩

/-- C5 amended: in every produced output, no `props`/`animations`/`textures`
container reachable from the root through a chain of `variant`/`group`
ancestors (the region the pruner actually visits) has zero children;
containers nested under any other kind of element may remain empty. -/
theorem c5_pruned_region_no_empty_containers (t t' : Node)
    (h : clean_xml t = some t') : noEmptyReachL t'.children = true := by
  cases t with
  | mk tg ta tcs =>
    rw [clean_xml_out tg ta tcs t' h]
    simp only [Node.children]
    exact pruneKids_reach _

/-- C5 witness: `tw5` produces output with a surviving non-empty `props`. -/
theorem c5_pruned_region_no_empty_containers_w :
    noEmptyReachL tw5out.children = true :=
  c5_pruned_region_no_empty_containers tw5 tw5out rfl

/-- C6 counterexample: the pruner removes the childless variant `vfe` with
`frequency="0"` even though it HAS a `file` attribute — its value is the
empty string, and the script's `not child.get("file")` test is Python
truthiness, which treats an empty string like an absent attribute. -/
theorem c6_counterexample :
    (pruneChild vfe).1 = none ∧ getA vfe.attrs "file" = some "" :=
  ⟨rfl, rfl⟩

/-- C6 amended: a `variant` child is removed exactly when, after recursion,
it has no remaining children, a falsy `file` attribute (absent or the empty
string) and frequency exactly "0"; a `group` child is removed exactly when
it has no remaining children, or exactly one remaining child that is a
childless `variant` with falsy `file` and frequency in the set given by
"0"/"100".  The final two conjuncts exhibit the intended asymmetry: a lone
variant with frequency "100" is kept by the variant rule, yet makes its
singleton group removable. -/
theorem c6_prune_removal_rules :
    (∀ a cs, (pruneChild (.mk "variant" a cs)).1 = none ↔
      (isNilL (pruneKids cs).1 = true ∧ truthy (getA a "file") = false
        ∧ getA a "frequency" = some "0"))
    ∧ (∀ a cs, (pruneChild (.mk "group" a cs)).1 = none ↔
      (isNilL (pruneKids cs).1 = true ∨ uselessOnlyVariant (pruneKids cs).1 = true))
    ∧ uselessOnlyVariant (.cons (.mk "variant" [("frequency", "100")] .nil) .nil) = true
    ∧ (pruneChild (.mk "variant" [("frequency", "100")] .nil)).1
        = some (.mk "variant" [("frequency", "100")] .nil) :=
  ⟨pruneChild_variant_iff, pruneChild_group_iff, rfl, rfl⟩

/-- C7: the normalizer touches exactly the variants whose frequency is
absent (setting it to "0"), leaves every other attribute list unchanged,
and in every produced output of a document (whose root is not itself a
variant) every variant carries a frequency attribute. -/
theorem c7_frequency_contract :
    (∀ t a cs, t ≠ "variant" → (normN (.mk t a cs)).1.attrs = a)
    ∧ (∀ t a cs v, getA a "frequency" = some v → (normN (.mk t a cs)).1.attrs = a)
    ∧ (∀ a cs, getA a "frequency" = none →
        (normN (.mk "variant" a cs)).1.attrs = setA a "frequency" "0")
    ∧ (∀ t t', clean_xml t = some t' → t.tag ≠ "variant" → freqTotal t' = true) := by
  refine ⟨?_, ?_, ?_, ?_⟩
  · intro t a cs ht
    have h : ¬ (t = "variant" ∧ getA a "frequency" = none) := fun hc => ht hc.1
    simp [normN, h, Node.attrs]
  · intro t a cs v hv
    have h : ¬ (t = "variant" ∧ getA a "frequency" = none) := by
      intro hc
      rw [hc.2] at hv
      cases hv
    simp [normN, h, Node.attrs]
  · intro a cs hf
    simp [normN, hf, Node.attrs]
  · intro t t' h ht
    cases t with
    | mk tg ta tcs =>
      have hout := clean_xml_out tg ta tcs t' h
      simp only [Node.tag] at ht
      rw [hout]
      have hfl : freqTotalL (pruneKids (normL (stripL tcs)).1).1 = true :=
        pruneKids_freq _ (normL_freq _)
      simp [freqTotal, ht, hfl]

/-- C7 witness: the output for `tw7` keeps the variant (it has a `file`)
and every variant in it carries a frequency. -/
theorem c7_frequency_contract_w : freqTotal tw7out = true :=
  c7_frequency_contract.2.2.2 tw7 tw7out rfl (by decide)

/-- C8: running the pipeline on the tree a first run produced yields
"not modified": stripping leaves every `props` strictly below the root with
no matching child, normalization and pruning preserve that, and both
detection scans only fire on `props` elements strictly below the root, so
the second run returns immediately with no output. -/
theorem c8_idempotent (t t' : Node) (h : clean_xml t = some t') :
    clean_xml t' = none := by
  have hb := clean_xml_no_blood t t' h
  simp [clean_xml, hb]

/-- C8 witness: `tw8` produces output, and rerunning on it writes nothing. -/
theorem c8_idempotent_w : clean_xml tw8out = none :=
  c8_idempotent tw8 tw8out rfl

/-- C9: the union of the two detection scans equals the second scan alone —
every element matched by `.//variant/props/prop` is also matched by
`.//props/prop`, so the first scan never contributes a detection the
second misses. -/
theorem c9_scan_subsumption (t : Node) : has_blood t = hasBloodTwo t := by
  cases h : hasBloodOne t with
  | false => simp [has_blood, h]
  | true => simp [has_blood, h, hasBloodOne_le t h]

/-- C10: every produced output embeds in its input: surviving siblings keep
their relative order, tags are never changed, and the only attribute edit
on a survivor is the defaulting of an absent `frequency` to "0" on a
variant — filtering and pruning only delete whole nodes. -/
theorem c10_frame_preservation (t t' : Node) (h : clean_xml t = some t') :
    embN t' t = true :=
  clean_xml_emb t t' h

/-- C10 witness: the output for `tw10` (spec Example 1) embeds in `tw10`. -/
theorem c10_frame_preservation_w : embN tw10out tw10 = true :=
  c10_frame_preservation tw10 tw10out rfl
